import Mathlib

/-!
# Verification of the `anagrams` program (src/main.rs)

A shallow embedding of the core of the anagram search program:

* `subtract`       — sorted multiset subtraction (`fn subtract`, main.rs:9-25)
* `make_key`       — signature normalisation (`fn make_key`, main.rs:27-51)
* `anagrams_recur` — the recursive partition search
  (`Anagrammer::anagrams_recur`, main.rs:118-161)
* `restrict`, `restrict_letters`, `find_anagrams`
  (`Anagrammer`, main.rs:99-116)

Strings are modelled as lists of byte values (`List Nat`); the `HashMap`
dictionary is modelled as an association list in its (fixed, arbitrary)
iteration order, with the iterator of a search modelled as a cursor index
into that list.  The raw-pointer comparison in the `maxwords == 1` branch
(main.rs:140) compares the addresses of the two keys inside the hash table;
following the spec's reading of it ("a position within a fixed ...
total order over the Dictionary Index's entries, established by the
index's iteration order"), it is modelled as comparison of the positions
of the two entries in the iteration order.
-/

namespace Anagrams

/-- A signature / byte string: a list of byte values. -/
abbrev Sig := List Nat

/-- One dictionary entry: a signature key together with the original
word spellings (also byte strings) stored under it. -/
abbrev Entry := Sig × List Sig

/-- The loop of `fn subtract` (main.rs:13-19), walking `pool` once while
`i` is the cursor into `word` and `result` the accumulated output,
followed by the final check `i >= word.len()` (main.rs:21-24). -/
def subtract_go (word : List Nat) : List Nat → Nat → List Nat → Option (List Nat)
  | [], i, result => if word.length ≤ i then some result else none
  | c :: pool, i, result =>
    if i < word.length ∧ word.getD i 0 = c then subtract_go word pool (i + 1) result
    else subtract_go word pool i (result ++ [c])

/-- `fn subtract(word: &[u8], pool: &[u8]) -> Option<Box<[u8]>>` (main.rs:9-25). -/
def subtract (word pool : List Nat) : Option (List Nat) :=
  subtract_go word pool 0 []

/-- `Vec::swap_remove(i)`: replace element `i` by the last element and
shorten the list by one (used at main.rs:44). -/
def swap_remove (bs : List Nat) (i : Nat) : List Nat :=
  (bs.set i (bs.getD (bs.length - 1) 0)).dropLast

/-- The character loop of `fn make_key` (main.rs:32-47): at index `i`,
fold `A..=Z` to lower case and advance, keep `a..=z | 0..=9` and advance,
and `swap_remove` anything else. -/
def make_key_loop (bs : List Nat) (i : Nat) : List Nat :=
  if i < bs.length then
    let c := bs.getD i 0
    if 0x41 ≤ c ∧ c ≤ 0x5A then make_key_loop (bs.set i (c + 0x20)) (i + 1)
    else if (0x61 ≤ c ∧ c ≤ 0x7A) ∨ (0x30 ≤ c ∧ c ≤ 0x39) then make_key_loop bs (i + 1)
    else make_key_loop (swap_remove bs i) i
  else bs
termination_by bs.length - i
decreasing_by
  · simp only [List.length_set]; omega
  · omega
  · have h1 : (swap_remove bs i).length = bs.length - 1 := by
      simp [swap_remove, List.length_dropLast, List.length_set]
    omega

/-- `fn make_key(word: &str) -> Option<Box<[u8]>>` (main.rs:27-51): reject
non-ASCII bytes, run the filtering/folding loop, sort the result.
`Vec::sort` on bytes is modelled by `List.insertionSort (· ≤ ·)` (any
correct ascending sort of a list of numbers produces the same list). -/
def make_key (word : List Nat) : Option (List Nat) :=
  if word.any (fun c => 0x80 ≤ c) then none
  else some (List.insertionSort (· ≤ ·) (make_key_loop word 0))

/-- `HashMap::get_key_value(pool)` (main.rs:133): the entry whose key
equals `pool`, if any. -/
def get_key_value (dict : List Entry) (pool : Sig) : Option Entry :=
  dict.find? (fun e => e.1 == pool)

/-- The position of the entry with key `key` in the dictionary's
iteration order; models the address of that key in the hash table
(see the header comment). -/
def key_pos (dict : List Entry) (key : Sig) : Nat :=
  dict.findIdx (fun e => e.1 == key)

/-- The `while let Some((key, words)) = dictionary_iter.next()` loop of
`anagrams_recur` (main.rs:149-160).  `rest` is the iterator's remaining
entries (`rest = dict.drop cursor`), `cursor` its position, and `f` the
recursive call at `maxwords - 1` (taking cursor, pool, minwords).  Each
successful `subtract` contributes the recursive results, each tail
sequence expanded by pushing every spelling of the chosen entry
(main.rs:152-158). -/
def anagrams_loop (f : Nat → Sig → Nat → List (List Sig)) :
    List Entry → Nat → Sig → Nat → List (List Sig)
  | [], _, _, _ => []
  | (key, words) :: rest, cursor, pool, mn =>
    (match subtract key pool with
     | some new_pool =>
       (f (cursor + 1) new_pool (if mn = 0 then 0 else mn - 1)).flatMap
         (fun set => words.map (fun w => set ++ [w]))
     | none => []) ++ anagrams_loop f rest (cursor + 1) pool mn

/-- `Anagrammer::anagrams_recur` (main.rs:118-161).  Arguments are
reordered (`maxwords` first) so the recursion is structural on
`maxwords`; the guards are exactly main.rs:119-130, the `maxwords == 1`
single-word completion is main.rs:132-147 (with the pointer comparison
modelled by `key_pos`, see header), and the general case iterates the
dictionary from the cursor via `anagrams_loop`.  The returned list is
the sequence of word sequences passed to the sink `f`, in call order. -/
def anagrams_recur (dict : List Entry) (mx cursor : Nat) (pool : Sig) (mn : Nat) :
    List (List Sig) :=
  if mn > mx then []
  else if pool.length = 0 ∧ mn = 0 then [[]]
  else if mx = 0 then []
  else if mx = 1 then
    match get_key_value dict pool with
    | none => []
    | some (key, words) =>
      match dict.drop cursor with
      | [] => []
      | (next_key, _) :: _ =>
        if key_pos dict key < key_pos dict next_key then []
        else words.map (fun w => [w])
  else
    match mx with
    | mx' + 1 => anagrams_loop (fun c p m => anagrams_recur dict mx' c p m)
        (dict.drop cursor) cursor pool mn
    | 0 => []

/-- `Anagrammer::restrict` (main.rs:99-103): keep only entries whose key
is a sub-multiset of the pool.  `HashMap::retain` keeps the surviving
entries in their iteration order. -/
def restrict (dict : List Entry) (pool : Sig) : List Entry :=
  dict.filter (fun e => (subtract e.1 pool).isSome)

/-- `Anagrammer::restrict_letters` (main.rs:105-109). -/
def restrict_letters (dict : List Entry) (minletters maxletters : Nat) : List Entry :=
  dict.filter (fun e => minletters ≤ e.1.length ∧ e.1.length ≤ maxletters)

/-- `Anagrammer::find_anagrams` (main.rs:111-116): sort the query bytes
into the pool, restrict the dictionary to the pool, search from the
start of the iteration order. -/
def find_anagrams (dict : List Entry) (word : List Nat) (mn mx : Nat) :
    List (List Sig) :=
  let pool := List.insertionSort (· ≤ ·) word
  anagrams_recur (restrict dict pool) mx 0 pool mn

/-- The dictionary invariant maintained by construction
(main.rs:66-75): the keys of distinct entries of a `HashMap` are
distinct. -/
def NodupKeys (dict : List Entry) : Prop :=
  (dict.map Prod.fst).Nodup

/-- The dictionary invariant maintained by construction (main.rs:72-73):
every word stored under a key was put there because `make_key` produced
that key. -/
def DictInv (dict : List Entry) : Prop :=
  ∀ e ∈ dict, ∀ w ∈ e.2, make_key w = some e.1

/-! ## Correctness of `subtract` -/

/-- The loop's success is exactly greedy subsequence matching: the
unconsumed part of `word` must be a subsequence of the remaining pool. -/
theorem subtract_go_isSome (word : List Nat) :
    ∀ pool i result, (subtract_go word pool i result).isSome = true
      ↔ List.Sublist (word.drop i) pool := by
  intro pool
  induction pool with
  | nil =>
    intro i result
    simp only [subtract_go]
    split
    · rename_i hle
      simp [List.drop_eq_nil_of_le hle]
    · rename_i hlt
      simp only [Option.isSome_none, Bool.false_eq_true, false_iff]
      intro hsub
      have h1 := List.sublist_nil.mp hsub
      have h2 : word.length ≤ i := by
        by_contra h3
        push_neg at h3
        have := List.length_drop i word
        rw [h1] at this
        simp at this
        omega
      exact hlt h2
  | cons c pool ih =>
    intro i result
    simp only [subtract_go]
    split
    · rename_i h
      obtain ⟨hi, hc⟩ := h
      rw [ih (i + 1) result]
      rw [List.drop_eq_getElem_cons hi]
      rw [List.getD_eq_getElem word 0 hi] at hc
      rw [hc]
      exact (List.cons_sublist_cons).symm
    · rename_i h
      rw [ih i (result ++ [c])]
      rw [Classical.not_and_iff_or_not_not] at h
      constructor
      · exact fun hs => hs.cons c
      · intro hs
        rcases h with h | h
        · push_neg at h
          rw [List.drop_eq_nil_of_le h] at hs ⊢
          exact List.nil_sublist _
        · rcases Nat.lt_or_ge i word.length with hi | hi
          · rw [List.drop_eq_getElem_cons hi] at hs ⊢
            rw [List.getD_eq_getElem word 0 hi] at h
            cases hs with
            | cons _ hs' => exact hs'
            | cons₂ _ _ => exact absurd rfl h
          · rw [List.drop_eq_nil_of_le hi] at hs ⊢
            exact List.nil_sublist _

/-- When the loop succeeds, the output extends the accumulator by a
subsequence of the pool, and the unconsumed part of `word` together with
that subsequence is a permutation of the pool. -/
theorem subtract_go_eq_some (word : List Nat) :
    ∀ pool i result r, subtract_go word pool i result = some r →
      ∃ t, r = result ++ t ∧ List.Sublist t pool ∧ List.Perm (word.drop i ++ t) pool := by
  intro pool
  induction pool with
  | nil =>
    intro i result r h
    simp only [subtract_go] at h
    split at h
    · rename_i hle
      refine ⟨[], ?_, List.nil_sublist _, ?_⟩
      · simpa using (Option.some_inj.mp h).symm
      · simp [List.drop_eq_nil_of_le hle]
    · exact absurd h (by simp)
  | cons c pool ih =>
    intro i result r h
    simp only [subtract_go] at h
    split at h
    · rename_i hcond
      obtain ⟨hi, hc⟩ := hcond
      obtain ⟨t, ht1, ht2, ht3⟩ := ih (i + 1) result r h
      refine ⟨t, ht1, ht2.cons c, ?_⟩
      rw [List.drop_eq_getElem_cons hi]
      rw [List.getD_eq_getElem word 0 hi] at hc
      rw [hc]
      exact ht3.cons c
    · obtain ⟨t, ht1, ht2, ht3⟩ := ih i (result ++ [c]) r h
      refine ⟨c :: t, by simpa using ht1, ht2.cons₂ c, ?_⟩
      have h1 : List.Perm (word.drop i ++ (c :: t)) (c :: (word.drop i ++ t)) :=
        List.perm_middle
      exact h1.trans (ht3.cons c)

/-- `subtract` succeeds exactly when `word` is a subsequence of `pool`
(for arbitrary byte lists; for sorted lists this is sub-multiset
inclusion, see `subtract_spec`). -/
theorem subtract_isSome_iff (c p : List Nat) :
    (subtract c p).isSome = true ↔ List.Sublist c p := by
  have h := subtract_go_isSome c p 0 []
  simpa [subtract] using h

/-- A successful `subtract` returns a subsequence of the pool that,
together with the candidate, permutes to the pool. -/
theorem subtract_eq_some (c p r : List Nat) (h : subtract c p = some r) :
    List.Sublist r p ∧ List.Perm (c ++ r) p := by
  obtain ⟨t, ht1, ht2, ht3⟩ := subtract_go_eq_some c p 0 [] r h
  simp only [List.nil_append] at ht1
  subst ht1
  exact ⟨ht2, by simpa using ht3⟩

/-- C3: for all sorted byte sequences `c` and `p`, `subtract c p` returns
`some r` if and only if the multiset of `c`'s bytes is a sub-multiset of
`p`'s bytes; and whenever it returns `some r`, `r` is sorted, equals `p`
with exactly `c`'s bytes removed (with multiplicity), and has length
`p.length - c.length`. -/
theorem subtract_spec (c p : List Nat)
    (hc : c.Sorted (· ≤ ·)) (hp : p.Sorted (· ≤ ·)) :
    ((subtract c p).isSome = true ↔ (↑c : Multiset Nat) ≤ ↑p)
    ∧ ∀ r, subtract c p = some r →
        r.Sorted (· ≤ ·) ∧ (↑r : Multiset Nat) = ↑p - ↑c
        ∧ List.Perm (c ++ r) p ∧ r.length = p.length - c.length := by
  constructor
  · rw [subtract_isSome_iff, Multiset.coe_le]
    constructor
    · exact fun h => h.subperm
    · exact fun h => List.sublist_of_subperm_of_sorted h hc hp
  · intro r hr
    obtain ⟨hsub, hperm⟩ := subtract_eq_some c p r hr
    have hsort : r.Sorted (· ≤ ·) := hp.sublist hsub
    have hms : (↑c : Multiset Nat) + ↑r = ↑p := by
      have h2 : ((c ++ r : List Nat) : Multiset Nat) = ↑p := Multiset.coe_eq_coe.mpr hperm
      simpa using h2
    refine ⟨hsort, ?_, hperm, ?_⟩
    · have hms' : (↑r : Multiset Nat) + ↑c = ↑p := by rwa [add_comm] at hms
      exact eq_tsub_of_add_eq hms'
    · have := hperm.length_eq
      simp only [List.length_append] at this
      omega

/-! ## Correctness of `make_key` -/

/-- The per-character action of the `make_key` loop: fold an upper-case
letter, keep a lower-case letter or digit, drop anything else. -/
def canonByte (c : Nat) : Option Nat :=
  if 0x41 ≤ c ∧ c ≤ 0x5A then some (c + 0x20)
  else if (0x61 ≤ c ∧ c ≤ 0x7A) ∨ (0x30 ≤ c ∧ c ≤ 0x39) then some c
  else none

/-- The canonical (unsorted) content of a word: its bytes case-folded
with non-alphanumeric bytes removed, in order. -/
def canon (w : List Nat) : List Nat := w.filterMap canonByte

theorem canon_nil : canon [] = [] := rfl

theorem canon_cons (c : Nat) (w : List Nat) :
    canon (c :: w) = match canonByte c with
      | some d => d :: canon w
      | none => canon w := by
  simp only [canon, List.filterMap_cons]
  cases canonByte c <;> simp

/-- The `make_key` loop keeps the already-processed prefix and replaces
the unprocessed suffix by its canonical content, up to permutation
(`swap_remove` reorders, but the result is sorted afterwards). -/
theorem make_key_loop_perm (bs : List Nat) (i : Nat) :
    List.Perm (make_key_loop bs i) (bs.take i ++ canon (bs.drop i)) := by
  induction bs, i using make_key_loop.induct with
  | case1 bs i hi c hc ih =>
    rw [make_key_loop, if_pos hi]
    simp only at hc ih ⊢
    rw [if_pos hc]
    refine ih.trans (List.Perm.of_eq ?_)
    rw [List.set_eq_take_cons_drop _ hi]
    rw [List.take_append_eq_append_take, List.drop_append_eq_append_drop]
    rw [List.take_take, List.length_take]
    have h1 : min i bs.length = i := by omega
    have h2 : min (i+1) i = i := by omega
    rw [h1, h2]
    have h3 : i + 1 - i = 1 := by omega
    rw [h3]
    simp only [List.take_succ_cons, List.take_zero, List.drop_succ_cons,
      List.drop_eq_nil_of_le (by rw [List.length_take]; omega : (bs.take i).length ≤ i + 1),
      List.nil_append, List.drop_zero]
    rw [List.drop_eq_getElem_cons hi, ← List.getD_eq_getElem bs 0 hi]
    rw [canon_cons, canonByte, if_pos hc]
    simp
    exact List.getD_eq_getElem?_getD bs i 0
  | case2 bs i hi c hc1 hc2 ih =>
    rw [make_key_loop, if_pos hi]
    simp only at hc1 hc2 ih ⊢
    rw [if_neg hc1, if_pos hc2]
    refine ih.trans (List.Perm.of_eq ?_)
    rw [List.take_succ, List.drop_eq_getElem_cons hi, ← List.getD_eq_getElem bs 0 hi]
    rw [canon_cons, canonByte, if_neg hc1, if_pos hc2]
    simp only [List.getElem?_eq_getElem hi, ← List.getD_eq_getElem bs 0 hi]
    simp
  | case3 bs i hi c hc1 hc2 ih =>
    rw [make_key_loop, if_pos hi]
    simp only at hc1 hc2 ih ⊢
    rw [if_neg hc1, if_neg hc2]
    refine ih.trans ?_
    rw [List.drop_eq_getElem_cons hi, ← List.getD_eq_getElem bs 0 hi]
    rw [canon_cons, canonByte, if_neg hc1, if_neg hc2]
    by_cases hlt : i + 1 < bs.length
    · -- the removed slot is not the last one
      have hX : bs.drop (i + 1) ≠ [] := by
        intro hnil
        have := List.length_drop (i + 1) bs
        rw [hnil] at this
        simp at this
        omega
      have hu : swap_remove bs i
          = bs.take i ++ bs.getD (bs.length - 1) 0 :: (bs.drop (i + 1)).dropLast := by
        rw [swap_remove, List.set_eq_take_cons_drop _ hi,
          List.dropLast_append_of_ne_nil _ (by simp [hX]),
          List.dropLast_cons_of_ne_nil hX]
      have hlast : (bs.drop (i + 1)).getLast hX = bs.getD (bs.length - 1) 0 := by
        rw [List.getLast_eq_getElem, List.getElem_drop, List.getD_eq_getElem bs 0 (by omega)]
        congr 1
        rw [List.length_drop]
        omega
      have htk : (swap_remove bs i).take i = bs.take i := by
        rw [hu, List.take_append_eq_append_take, List.take_take]
        have h1 : min i i = i := by omega
        rw [h1, List.length_take]
        have h2 : i - min i bs.length = 0 := by omega
        rw [h2]
        simp
      have hdp : (swap_remove bs i).drop i
          = bs.getD (bs.length - 1) 0 :: (bs.drop (i + 1)).dropLast := by
        rw [hu, List.drop_append_eq_append_drop, List.drop_eq_nil_of_le (by
          rw [List.length_take]; omega), List.length_take]
        have h2 : i - min i bs.length = 0 := by omega
        rw [h2]
        simp
      rw [htk, hdp]
      refine List.Perm.append_left _ ?_
      have hp1 : List.Perm (bs.getD (bs.length - 1) 0 :: (bs.drop (i + 1)).dropLast)
          (bs.drop (i + 1)) := by
        refine List.Perm.trans (List.perm_append_singleton _ _).symm (List.Perm.of_eq ?_)
        rw [← hlast]
        exact List.dropLast_concat_getLast hX
      exact List.Perm.filterMap canonByte hp1
    · -- the removed slot is the last one: swap_remove just pops it
      have hieq : i = bs.length - 1 := by omega
      have hu : swap_remove bs i = bs.take i := by
        rw [swap_remove, List.dropLast_eq_take, List.length_set,
          List.set_eq_take_cons_drop _ hi, ← hieq, List.take_append_eq_append_take,
          List.take_take]
        have h1 : min i i = i := by omega
        rw [h1, List.length_take]
        have h2 : i - min i bs.length = 0 := by omega
        rw [h2]
        simp
      have hdrop : bs.drop (i + 1) = [] := List.drop_eq_nil_of_le (by omega)
      rw [hu, hdrop, canon_nil, List.take_take]
      have h1 : min i i = i := by omega
      rw [h1, List.drop_eq_nil_of_le (by rw [List.length_take]; omega), canon_nil]
  | case4 bs i hi =>
    rw [make_key_loop, if_neg hi]
    have hle : bs.length ≤ i := by omega
    rw [List.take_of_length_le hle, List.drop_eq_nil_of_le hle, canon_nil,
      List.append_nil]

/-- Sorting two lists that are permutations of each other gives the same
list. -/
theorem insertionSort_eq_of_perm {l m : List Nat} (h : List.Perm l m) :
    List.insertionSort (· ≤ ·) l = List.insertionSort (· ≤ ·) m :=
  List.eq_of_perm_of_sorted
    ((List.perm_insertionSort _ l).trans (h.trans (List.perm_insertionSort _ m).symm))
    (List.sorted_insertionSort _ l) (List.sorted_insertionSort _ m)

/-- Evaluation form of `make_key` on ASCII input: the canonical content
of the word, sorted. -/
theorem make_key_eq_of_ascii (w : List Nat) (h : ∀ c ∈ w, c < 0x80) :
    make_key w = some (List.insertionSort (· ≤ ·) (canon w)) := by
  have hn : ¬ w.any (fun c => 0x80 ≤ c) = true := by
    simp only [List.any_eq_true, not_exists, decide_eq_true_eq]
    intro c hc
    exact absurd (h c hc.1) (by omega)
  rw [make_key, if_neg hn]
  congr 1
  exact insertionSort_eq_of_perm (by simpa using make_key_loop_perm w 0)

/-- `make_key w` is `some` of a sorted list whenever it succeeds. -/
theorem make_key_sorted (w k : List Nat) (h : make_key w = some k) :
    k.Sorted (· ≤ ·) := by
  rw [make_key] at h
  split at h
  · exact absurd h (by simp)
  · rw [Option.some_inj] at h
    rw [← h]
    exact List.sorted_insertionSort _ _

/-- Spec-side (§4.1 of the spec): is a byte an ASCII alphanumeric
character? -/
def spec_is_alnum (c : Nat) : Bool :=
  decide ((0x41 ≤ c ∧ c ≤ 0x5A) ∨ (0x61 ≤ c ∧ c ≤ 0x7A) ∨ (0x30 ≤ c ∧ c ≤ 0x39))

/-- Spec-side (§4.1 of the spec): case-fold an ASCII byte. -/
def spec_fold (c : Nat) : Nat := if 0x41 ≤ c ∧ c ≤ 0x5A then c + 0x20 else c

/-- Spec-side (from the spec's words, §8 "Signature equality"): the
multiset of case-folded letters of a word, non-alphanumerics ignored.
Two words are letter-multiset anagrams of each other (case-insensitive,
non-alphanumeric ignored) iff their `spec_letters` agree. -/
def spec_letters (w : List Nat) : Multiset Nat :=
  ↑((w.filter spec_is_alnum).map spec_fold)

/-- The loop's per-character action agrees with filtering to
alphanumerics and case-folding. -/
theorem canon_eq_filter_map (w : List Nat) :
    canon w = (w.filter spec_is_alnum).map spec_fold := by
  induction w with
  | nil => rfl
  | cons c w ih =>
    rw [canon_cons, canonByte]
    by_cases h1 : 0x41 ≤ c ∧ c ≤ 0x5A
    · rw [if_pos h1]
      have hf : spec_is_alnum c = true := by
        simp only [spec_is_alnum, decide_eq_true_eq]
        exact Or.inl h1
      simp only [List.filter_cons_of_pos hf, List.map_cons, spec_fold, if_pos h1, ih]
    · rw [if_neg h1]
      by_cases h2 : (0x61 ≤ c ∧ c ≤ 0x7A) ∨ (0x30 ≤ c ∧ c ≤ 0x39)
      · rw [if_pos h2]
        have hf : spec_is_alnum c = true := by
          simp only [spec_is_alnum, decide_eq_true_eq]
          exact Or.inr h2
        simp only [List.filter_cons_of_pos hf, List.map_cons, spec_fold, if_neg h1, ih]
      · rw [if_neg h2]
        have hf : ¬ spec_is_alnum c = true := by
          simp only [spec_is_alnum, decide_eq_true_eq]
          tauto
        simp only [List.filter_cons_of_neg hf, ih]

/-- C5: for ASCII words `a` and `b`, `make_key a = make_key b` iff `a`
and `b` are letter-multiset anagrams of each other under
case-insensitive comparison with non-alphanumeric bytes ignored;
moreover `make_key` case-folds the alphabetic bytes, discards
non-alphanumeric bytes and sorts the remainder (and, being a function,
it is deterministic and pure). -/
theorem make_key_spec (a b : List Nat)
    (ha : ∀ c ∈ a, c < 0x80) (hb : ∀ c ∈ b, c < 0x80) :
    (make_key a = make_key b ↔ spec_letters a = spec_letters b)
    ∧ make_key a
      = some (List.insertionSort (· ≤ ·) ((a.filter spec_is_alnum).map spec_fold)) := by
  have hae := make_key_eq_of_ascii a ha
  have hbe := make_key_eq_of_ascii b hb
  have hca := canon_eq_filter_map a
  have hcb := canon_eq_filter_map b
  refine ⟨?_, by rw [hae, hca]⟩
  rw [hae, hbe, hca, hcb, Option.some_inj]
  unfold spec_letters
  rw [Multiset.coe_eq_coe]
  constructor
  · intro h
    have h2 := List.perm_insertionSort (fun x1 x2 => x1 ≤ x2)
      (List.map spec_fold (List.filter spec_is_alnum b))
    rw [← h] at h2
    exact (List.perm_insertionSort _ _).symm.trans h2
  · exact insertionSort_eq_of_perm

/-! ## Dictionary position helpers -/

/-- With distinct keys, the position of the key of the entry stored at
index `j` is `j` itself. -/
theorem key_pos_eq (dict : List Entry) (hnd : NodupKeys dict) (j : Nat)
    (hj : j < dict.length) : key_pos dict (dict[j].1) = j := by
  rw [key_pos, List.findIdx_eq hj]
  refine ⟨by exact beq_self_eq_true _, ?_⟩
  intro i hij
  have hi : i < dict.length := by omega
  show (dict[i].1 == dict[j].1) = false
  rw [beq_eq_false_iff_ne]
  intro hkey
  have hi2 : i < (dict.map Prod.fst).length := by simpa using hi
  have hj2 : j < (dict.map Prod.fst).length := by simpa using hj
  have hm : (dict.map Prod.fst)[i] = (dict.map Prod.fst)[j] := by
    simp only [List.getElem_map]
    exact hkey
  have := (List.Nodup.getElem_inj_iff hnd).mp hm
  omega

/-- With distinct keys, two entries of the dictionary with the same key
are the same entry. -/
theorem entry_eq_of_key_eq (dict : List Entry) (hnd : NodupKeys dict)
    {a e : Entry} (ha : a ∈ dict) (he : e ∈ dict) (h : a.1 = e.1) : a = e := by
  obtain ⟨i, hi, hia⟩ := List.mem_iff_getElem.mp ha
  obtain ⟨j, hj, hje⟩ := List.mem_iff_getElem.mp he
  have hi2 : i < (dict.map Prod.fst).length := by simpa using hi
  have hj2 : j < (dict.map Prod.fst).length := by simpa using hj
  have hm : (dict.map Prod.fst)[i] = (dict.map Prod.fst)[j] := by
    simp only [List.getElem_map]
    rw [hia, hje]
    exact h
  have hij := (List.Nodup.getElem_inj_iff hnd).mp hm
  subst hij
  rw [← hia, ← hje]

/-- A successful `get_key_value` returns an entry of the dictionary whose
key is the looked-up pool. -/
theorem get_key_value_eq_some (dict : List Entry) (pool : Sig) (e : Entry)
    (h : get_key_value dict pool = some e) : e.1 = pool ∧ e ∈ dict := by
  have h1 := List.find?_some h
  have h2 := List.mem_of_find?_eq_some h
  simp only [beq_iff_eq] at h1
  exact ⟨h1, h2⟩

/-- With distinct keys, looking up the key of a dictionary entry finds
that entry. -/
theorem get_key_value_of_mem (dict : List Entry) (hnd : NodupKeys dict)
    (e : Entry) (he : e ∈ dict) : get_key_value dict e.1 = some e := by
  have hex : ∃ x, x ∈ dict ∧ (fun x : Entry => x.1 == e.1) x = true :=
    ⟨e, he, by simp⟩
  obtain ⟨a, ha⟩ := Option.isSome_iff_exists.mp (List.find?_isSome.mpr hex)
  have ha' : get_key_value dict e.1 = some a := ha
  obtain ⟨h1, h2⟩ := get_key_value_eq_some dict e.1 a ha'
  rw [ha', entry_eq_of_key_eq dict hnd h2 he h1]

/-! ## Soundness of the search -/

/-- The shape of every emitted word sequence: it comes from a list of
dictionary entries (in choice order: outermost chosen entry first) and
one chosen spelling per entry; the sequence is the reversed spelling
list (the engine builds sequences tail-first); the chosen keys together
permute to the pool; the number of words respects the bounds; and — when
the dictionary keys are distinct — the chosen entries are, in choice
order, a subsequence of the dictionary from the cursor onwards (so the
choice positions strictly increase). -/
def Chooses (dict : List Entry) (cursor : Nat) (pool : Sig) (mn mx : Nat)
    (s : List Sig) : Prop :=
  ∃ entries ws,
    List.Forall₂ (fun (e : Entry) w => w ∈ e.2) entries ws
    ∧ s = ws.reverse
    ∧ List.Perm (entries.map Prod.fst).flatten pool
    ∧ mn ≤ entries.length ∧ entries.length ≤ mx
    ∧ (∀ e ∈ entries, e ∈ dict)
    ∧ (NodupKeys dict → List.Sublist entries (dict.drop cursor))

/-- Soundness of one pass of the dictionary loop, given soundness of the
recursive call at `maxwords - 1`. -/
theorem anagrams_loop_sound (dict : List Entry) (mx' : Nat)
    (hf : ∀ cursor pool mn s, s ∈ anagrams_recur dict mx' cursor pool mn →
      Chooses dict cursor pool mn mx' s) :
    ∀ rest cursor pool mn s, dict.drop cursor = rest →
      s ∈ anagrams_loop (fun c p m => anagrams_recur dict mx' c p m) rest cursor pool mn →
      Chooses dict cursor pool mn (mx' + 1) s := by
  intro rest
  induction rest with
  | nil =>
    intro cursor pool mn s _ hs
    exact absurd hs (by simp [anagrams_loop])
  | cons entry rest' ihr =>
    intro cursor pool mn s hdrop hs
    obtain ⟨key, words⟩ := entry
    rw [anagrams_loop, List.mem_append] at hs
    have hrest' : dict.drop (cursor + 1) = rest' := by
      rw [← List.tail_drop, hdrop]
      rfl
    rcases hs with hs | hs
    · -- the entry at the cursor was chosen
      cases hsub : subtract key pool with
      | none =>
        rw [hsub] at hs
        exact absurd hs (by simp)
      | some new_pool =>
        rw [hsub] at hs
        simp only [List.mem_flatMap, List.mem_map] at hs
        obtain ⟨set, hset, w, hw, hsw⟩ := hs
        obtain ⟨entries', ws', hf2, hrev, hperm, hmnl, hmxl, hmem, hsubl⟩ :=
          hf _ _ _ _ hset
        obtain ⟨hps, hpp⟩ := subtract_eq_some key pool new_pool hsub
        refine ⟨(key, words) :: entries', w :: ws',
          List.Forall₂.cons hw hf2, ?_, ?_, ?_, ?_, ?_, ?_⟩
        · rw [List.reverse_cons, ← hrev, ← hsw]
        · simp only [List.map_cons, List.flatten_cons]
          exact (hperm.append_left key).trans hpp
        · simp only [List.length_cons]
          have h2 : (if mn = 0 then 0 else mn - 1) ≤ entries'.length := hmnl
          split at h2 <;> omega
        · simp only [List.length_cons]
          omega
        · intro e he
          rcases List.mem_cons.mp he with he | he
          · subst he
            have h3 : (key, words) ∈ dict.drop cursor := by
              rw [hdrop]
              exact List.mem_cons_self _ _
            exact List.drop_subset _ _ h3
          · exact hmem e he
        · intro hnd
          rw [hdrop]
          exact (hrest' ▸ hsubl hnd).cons₂ (key, words)
    · -- the entry at the cursor was skipped; continue the loop
      obtain ⟨entries, ws, hf2, hrev, hperm, hmn, hmx, hmem, hsubl⟩ :=
        ihr (cursor + 1) pool mn s hrest' hs
      refine ⟨entries, ws, hf2, hrev, hperm, hmn, hmx, hmem, fun hnd => ?_⟩
      rw [hdrop]
      exact (hrest' ▸ hsubl hnd).cons (key, words)

/-- Soundness of `anagrams_recur`: every emitted sequence is of the
shape described by `Chooses`. -/
theorem anagrams_recur_sound (dict : List Entry) :
    ∀ mx cursor pool mn s, s ∈ anagrams_recur dict mx cursor pool mn →
      Chooses dict cursor pool mn mx s := by
  intro mx
  induction mx with
  | zero =>
    intro cursor pool mn s hs
    rw [anagrams_recur] at hs
    split at hs
    · exact absurd hs (by simp)
    · split at hs
      · rename_i hpool
        refine ⟨[], [], List.Forall₂.nil, by simpa using hs, ?_,
          by simp [hpool.2], by simp, by simp, fun _ => List.nil_sublist _⟩
        have : pool = [] := List.eq_nil_of_length_eq_zero hpool.1
        simp [this]
      · split at hs
        · exact absurd hs (by simp)
        · rename_i hne0 hne
          exact absurd rfl hne
  | succ mx ih =>
    intro cursor pool mn s hs
    rw [anagrams_recur] at hs
    split at hs
    · exact absurd hs (by simp)
    · split at hs
      · rename_i hpool
        refine ⟨[], [], List.Forall₂.nil, by simpa using hs, ?_,
          by simp [hpool.2], by simp, by simp, fun _ => List.nil_sublist _⟩
        have : pool = [] := List.eq_nil_of_length_eq_zero hpool.1
        simp [this]
      · split at hs
        · exact absurd hs (by simp)
        · split at hs
          · -- maxwords == 1
            rename_i hnmn hnpool hmx0 hmx1
            split at hs
            · exact absurd hs (by simp)
            · rename_i key words hgkv
              split at hs
              · exact absurd hs (by simp)
              · rename_i next_key nw rest'' hdrop
                split at hs
                · exact absurd hs (by simp)
                · rename_i hpos
                  simp only [List.mem_map] at hs
                  obtain ⟨w, hw, hsw⟩ := hs
                  obtain ⟨hkey, hmem⟩ :=
                    get_key_value_eq_some dict pool (key, words) hgkv
                  refine ⟨[(key, words)], [w],
                    List.Forall₂.cons hw List.Forall₂.nil, by simp [← hsw], ?_, ?_, ?_,
                    by simpa using hmem, ?_⟩
                  · simp only [List.map_cons, List.map_nil, List.flatten_cons,
                      List.flatten_nil, List.append_nil]
                    have hkey2 : key = pool := hkey
                    rw [hkey2]
                  · simp only [List.length_cons, List.length_nil]
                    omega
                  · simp only [List.length_cons, List.length_nil]
                    omega
                  · intro hnd
                    rw [List.singleton_sublist]
                    -- the found entry sits at or after the cursor
                    obtain ⟨j, hj, hje⟩ := List.mem_iff_getElem.mp hmem
                    have hcur : cursor < dict.length := by
                      by_contra hc
                      push_neg at hc
                      rw [List.drop_eq_nil_of_le hc] at hdrop
                      exact absurd hdrop (by simp)
                    have hkpj : key_pos dict key = j := by
                      have := key_pos_eq dict hnd j hj
                      rwa [hje] at this
                    have hkpc : key_pos dict next_key = cursor := by
                      have h2 := List.drop_eq_getElem_cons hcur
                      rw [hdrop] at h2
                      have h1 : dict[cursor] = (next_key, nw) := by
                        injection h2 with h3 h4
                        exact h3.symm
                      have := key_pos_eq dict hnd cursor hcur
                      rwa [h1] at this
                    rw [hkpj, hkpc] at hpos
                    push_neg at hpos
                    have hjc : cursor ≤ j := hpos
                    have hb : j - cursor < (dict.drop cursor).length := by
                      rw [List.length_drop]
                      omega
                    have h2 : (dict.drop cursor)[j - cursor] = dict[j] := by
                      rw [List.getElem_drop dict]
                      congr 1
                      omega
                    rw [← hje, ← h2]
                    exact List.getElem_mem _
          · -- maxwords >= 2: the dictionary loop
            have hs' : s ∈ anagrams_loop (fun c p m => anagrams_recur dict mx c p m)
                (dict.drop cursor) cursor pool mn := hs
            have hc := anagrams_loop_sound dict mx ih (dict.drop cursor)
              cursor pool mn s rfl hs'
            exact hc

/-! ## Consequences of soundness -/

/-- The signature of a stored word: what `make_key` produced for it when
the dictionary was built (`[]` as a dummy for non-ASCII input). -/
def word_sig (w : Sig) : Sig := (make_key w).getD []

theorem mem_filter_entry (p : Entry → Bool) (dict : List Entry) (e : Entry)
    (h : e ∈ dict.filter p) : e ∈ dict ∧ p e = true :=
  List.mem_filter.mp h

/-- Filtering the dictionary preserves distinctness of keys. -/
theorem nodupKeys_filter (p : Entry → Bool) (dict : List Entry)
    (h : NodupKeys dict) : NodupKeys (dict.filter p) :=
  List.Nodup.sublist ((List.filter_sublist dict).map Prod.fst) h

/-- Filtering the dictionary preserves the key invariant. -/
theorem dictInv_filter (p : Entry → Bool) (dict : List Entry)
    (h : DictInv dict) : DictInv (dict.filter p) :=
  fun e he w hw => h e (List.mem_filter.mp he).1 w hw

/-- Under the key invariant, the spellings chosen from a list of entries
have exactly those entries' keys as signatures. -/
theorem sigs_eq_keys (dict : List Entry) (hinv : DictInv dict) :
    ∀ entries ws, List.Forall₂ (fun (e : Entry) w => w ∈ e.2) entries ws →
      (∀ e ∈ entries, e ∈ dict) →
      ws.map word_sig = entries.map Prod.fst := by
  intro entries ws hf
  induction hf with
  | nil => intro; rfl
  | cons hr hf2 ih =>
    rename_i e w es ws'
    intro hmem
    have h1 : make_key w = some e.1 :=
      hinv e (hmem e (List.mem_cons_self _ _)) w hr
    simp only [List.map_cons]
    rw [ih (fun x hx => hmem x (List.mem_cons_of_mem _ hx))]
    simp [word_sig, h1]

/-- An element of the right list of a `Forall₂` is relatum of some
element of the left list. -/
theorem forall₂_mem_right {R : Entry → Sig → Prop} :
    ∀ {es : List Entry} {ws : List Sig}, List.Forall₂ R es ws →
      ∀ w ∈ ws, ∃ e ∈ es, R e w := by
  intro es ws hf
  induction hf with
  | nil => simp
  | cons hr hf2 ih =>
    rename_i e w es' ws'
    intro v hv
    rcases List.mem_cons.mp hv with hv | hv
    · exact ⟨e, List.mem_cons_self _ _, hv ▸ hr⟩
    · obtain ⟨e', he', hr'⟩ := ih v hv
      exact ⟨e', List.mem_cons_of_mem _ he', hr'⟩

/-- The concatenation of a reversed list of lists permutes to the
concatenation of the list itself. -/
theorem flatten_reverse_perm : ∀ l : List (List Nat),
    List.Perm l.reverse.flatten l.flatten := by
  intro l
  induction l with
  | nil => exact List.Perm.refl _
  | cons a l ih =>
    simp only [List.reverse_cons, List.flatten_append, List.flatten_cons]
    have h1 : List.Perm (l.reverse.flatten ++ [a].flatten)
        (l.flatten ++ [a].flatten) := ih.append_right _
    refine h1.trans ?_
    simp only [List.flatten_cons, List.flatten_nil, List.append_nil]
    exact List.perm_append_comm

/-- Two subsequences of a duplicate-free list that are permutations of
each other are equal. -/
theorem sublist_eq_of_perm {α : Type} : ∀ (l s1 s2 : List α), l.Nodup →
    List.Sublist s1 l → List.Sublist s2 l → List.Perm s1 s2 → s1 = s2 := by
  intro l
  induction l with
  | nil =>
    intro s1 s2 _ h1 h2 _
    rw [List.sublist_nil.mp h1, List.sublist_nil.mp h2]
  | cons a l ih =>
    intro s1 s2 hnd h1 h2 hp
    have hal : a ∉ l := (List.nodup_cons.mp hnd).1
    have hl : l.Nodup := (List.nodup_cons.mp hnd).2
    cases h1 with
    | cons a1 h1x =>
      cases h2 with
      | cons a2 h2x => exact ih s1 s2 hl h1x h2x hp
      | cons₂ a2 h2x =>
        exfalso
        have ha1 : a ∈ s1 := hp.symm.subset (List.mem_cons_self _ _)
        exact hal (h1x.subset ha1)
    | cons₂ a1 h1x =>
      cases h2 with
      | cons a2 h2x =>
        exfalso
        have ha2 : a ∈ s2 := hp.subset (List.mem_cons_self _ _)
        exact hal (h2x.subset ha2)
      | cons₂ a2 h2x =>
        rename_i t1 t2
        have := ih _ _ hl h1x h2x (hp.cons_inv)
        rw [this]

/-- Unfolding of `find_anagrams` (main.rs:111-116). -/
theorem find_anagrams_eq (dict : List Entry) (word : List Nat) (mn mx : Nat) :
    find_anagrams dict word mn mx
      = anagrams_recur (restrict dict (List.insertionSort (· ≤ ·) word)) mx 0
          (List.insertionSort (· ≤ ·) word) mn := rfl

/-- C4: every word sequence passed to the sink exactly exhausts the
pool: concatenating the signatures of the sequence's words and sorting
yields precisely the query's normalized signature — no letter left over
and none used more often than it occurs in the pool. -/
theorem find_anagrams_exhausts_pool (dict : List Entry) (word : List Nat)
    (mn mx : Nat) (s : List Sig) (hinv : DictInv dict)
    (hs : s ∈ find_anagrams dict word mn mx) :
    List.insertionSort (· ≤ ·) (s.flatMap word_sig)
      = List.insertionSort (· ≤ ·) word := by
  rw [find_anagrams_eq] at hs
  obtain ⟨entries, ws, hf, hrev, hperm, _, _, hmem, _⟩ :=
    anagrams_recur_sound _ _ _ _ _ _ hs
  have hinv' : DictInv (restrict dict (List.insertionSort (· ≤ ·) word)) :=
    dictInv_filter _ _ hinv
  have hsig := sigs_eq_keys _ hinv' entries ws hf hmem
  refine insertionSort_eq_of_perm ?_
  have h1 : s.flatMap word_sig = ((entries.map Prod.fst).reverse).flatten := by
    rw [hrev]
    show ((ws.reverse).map word_sig).flatten = _
    rw [List.map_reverse, hsig]
  rw [h1]
  exact ((flatten_reverse_perm _).trans hperm).trans (List.perm_insertionSort _ word)

/-- C6: every sequence passed to the sink has a word count within
`[minwords, maxwords]`, and — after `restrict_letters minl maxl` has
been applied to the dictionary — every emitted word's signature length
lies within `[minletters, maxletters]`. -/
theorem find_anagrams_respects_bounds (dict : List Entry) (minl maxl : Nat)
    (word : List Nat) (mn mx : Nat) (s : List Sig) (hinv : DictInv dict)
    (hs : s ∈ find_anagrams (restrict_letters dict minl maxl) word mn mx) :
    (mn ≤ s.length ∧ s.length ≤ mx)
    ∧ ∀ w ∈ s, minl ≤ (word_sig w).length ∧ (word_sig w).length ≤ maxl := by
  rw [find_anagrams_eq] at hs
  obtain ⟨entries, ws, hf, hrev, hperm, hmn, hmx, hmem, _⟩ :=
    anagrams_recur_sound _ _ _ _ _ _ hs
  have hlen : s.length = entries.length := by
    rw [hrev, List.length_reverse, hf.length_eq]
  refine ⟨⟨by omega, by omega⟩, ?_⟩
  intro w hw
  rw [hrev, List.mem_reverse] at hw
  obtain ⟨e, he, hwmem⟩ := forall₂_mem_right hf w hw
  have hed := hmem e he
  obtain ⟨hed2, _⟩ := mem_filter_entry _ _ _ hed
  obtain ⟨hed3, hlenb⟩ := mem_filter_entry _ _ _ hed2
  have hinv2 : DictInv (restrict_letters dict minl maxl) := dictInv_filter _ _ hinv
  have hkey : make_key w = some e.1 := hinv2 e hed2 w hwmem
  have hws : word_sig w = e.1 := by simp [word_sig, hkey]
  rw [hws]
  simpa using hlenb

/-- C2: no two sequences passed to the sink are reorderings of the same
signature multiset: whenever the signature sequences of two emitted word
sequences are permutations of each other, they are in fact the same
sequence — each distinct partition into signatures is emitted via
exactly one ordering (different spellings of the same signatures are
still allowed to differ). -/
theorem find_anagrams_no_permuted_duplicates (dict : List Entry)
    (word : List Nat) (mn mx : Nat) (s1 s2 : List Sig)
    (hnd : NodupKeys dict) (hinv : DictInv dict)
    (h1 : s1 ∈ find_anagrams dict word mn mx)
    (h2 : s2 ∈ find_anagrams dict word mn mx)
    (hp : List.Perm (s1.map word_sig) (s2.map word_sig)) :
    s1.map word_sig = s2.map word_sig := by
  rw [find_anagrams_eq] at h1 h2
  obtain ⟨entries1, ws1, hf1, hrev1, _, _, _, hmem1, hsub1⟩ :=
    anagrams_recur_sound _ _ _ _ _ _ h1
  obtain ⟨entries2, ws2, hf2, hrev2, _, _, _, hmem2, hsub2⟩ :=
    anagrams_recur_sound _ _ _ _ _ _ h2
  have hndr : NodupKeys (restrict dict (List.insertionSort (· ≤ ·) word)) :=
    nodupKeys_filter _ _ hnd
  have hinvr : DictInv (restrict dict (List.insertionSort (· ≤ ·) word)) :=
    dictInv_filter _ _ hinv
  have hsig1 := sigs_eq_keys _ hinvr entries1 ws1 hf1 hmem1
  have hsig2 := sigs_eq_keys _ hinvr entries2 ws2 hf2 hmem2
  have hm1 : s1.map word_sig = (entries1.map Prod.fst).reverse := by
    rw [hrev1, List.map_reverse, hsig1]
  have hm2 : s2.map word_sig = (entries2.map Prod.fst).reverse := by
    rw [hrev2, List.map_reverse, hsig2]
  rw [hm1, hm2] at hp ⊢
  have hpk : List.Perm (entries1.map Prod.fst) (entries2.map Prod.fst) :=
    ((List.reverse_perm _).symm.trans hp).trans (List.reverse_perm _)
  have hk1 : List.Sublist (entries1.map Prod.fst)
      ((restrict dict (List.insertionSort (· ≤ ·) word)).map Prod.fst) := by
    have := hsub1 hndr
    rw [List.drop_zero] at this
    exact this.map Prod.fst
  have hk2 : List.Sublist (entries2.map Prod.fst)
      ((restrict dict (List.insertionSort (· ≤ ·) word)).map Prod.fst) := by
    have := hsub2 hndr
    rw [List.drop_zero] at this
    exact this.map Prod.fst
  rw [sublist_eq_of_perm _ _ _ hndr hk1 hk2 hpk]

/-- C8: a query with `minwords > maxwords` is not an error: the search
returns normally and the sink is never invoked (main.rs:119-121). -/
theorem find_anagrams_infeasible_bounds (dict : List Entry) (word : List Nat)
    (mn mx : Nat) (h : mx < mn) : find_anagrams dict word mn mx = [] := by
  rw [find_anagrams_eq]
  cases mx with
  | zero => rw [anagrams_recur, if_pos (show mn > 0 from h)]
  | succ mxp => rw [anagrams_recur, if_pos (show mn > mxp + 1 from h)]

/-- Witness for C8 at a concrete input. -/
theorem find_anagrams_infeasible_bounds_witness :
    find_anagrams [([97], [[97]])] [97] 3 1 = [] :=
  find_anagrams_infeasible_bounds [([97], [[97]])] [97] 3 1 (by decide)

/-- The spec's example dictionary {"a","at","tea","eat","ate","tab"}
(§8), grouped by signature, each word as its byte string. -/
def tea_dict : List Entry :=
  [([97], [[97]]), ([97, 116], [[97, 116]]),
   ([97, 101, 116], [[116, 101, 97], [101, 97, 116], [97, 116, 101]]),
   ([97, 98, 116], [[116, 97, 98]])]

/-- C7 (counterexample): the spec claims the query "tea" with
`minwords = maxwords = 2` yields exactly the partition {"a","at"}, but
the program emits nothing: the signatures of "a" and "at" sum to
{a,a,t}, which is not the signature {a,e,t} of "tea" (the spec
miscomputed the sum). -/
theorem tea_query_two_words_empty :
    find_anagrams tea_dict [97, 101, 116] 2 2 = [] := by decide

/-- C7 (amended): for every iteration order of the example dictionary,
the query "tea" with `minwords = maxwords = 2` yields no results: no two
dictionary signatures sum to the pool {a,e,t} (in particular
sig "a" + sig "at" = {a,a,t} ≠ {a,e,t}), and "tab" is excluded because
its signature {a,b,t} is not a sub-multiset of {a,e,t}. -/
theorem tea_query_two_words_empty_all_orders (d : List Entry)
    (hd : List.Perm d tea_dict) :
    find_anagrams d [97, 101, 116] 2 2 = []
    ∧ subtract [97, 98, 116] [97, 101, 116] = none := by
  refine ⟨?_, by decide⟩
  rw [List.eq_nil_iff_forall_not_mem]
  intro s hs
  rw [find_anagrams_eq] at hs
  obtain ⟨entries, ws, hf, hrev, hperm, hmn, hmx, hmem, _⟩ :=
    anagrams_recur_sound _ _ _ _ _ _ hs
  rcases entries with _ | ⟨e1, _ | ⟨e2, _ | ⟨e3, rest⟩⟩⟩
  · simp at hmn
  · simp at hmn
  · have he1r := hmem e1 (by simp)
    have he2r := hmem e2 (by simp)
    have he1d := (mem_filter_entry _ _ _ he1r).1
    have he2d := (mem_filter_entry _ _ _ he2r).1
    have he1t : e1 ∈ tea_dict := hd.mem_iff.mp he1d
    have he2t : e2 ∈ tea_dict := hd.mem_iff.mp he2d
    simp only [tea_dict, List.mem_cons, List.not_mem_nil, or_false] at he1t he2t
    rcases he1t with rfl | rfl | rfl | rfl <;> rcases he2t with rfl | rfl | rfl | rfl <;>
      exact absurd hperm (by decide)
  · simp at hmx

/-- C1 (counterexample): a partition that uses the same signature more
than once is never emitted.  With the one-entry dictionary {"a"} and the
query "aa", the partition [sig "a", sig "a"] exactly exhausts the pool
and fits the bounds `minwords = 0`, `maxwords = 2`, yet `find_anagrams`
emits nothing: the loop's iterator is already past an entry when the
recursive call starts, so an entry can never be chosen twice. -/
theorem repeated_signature_not_emitted :
    find_anagrams [([97], [[97]])] [97, 97] 0 2 = []
    ∧ List.Perm ([97] ++ [97]) (List.insertionSort (· ≤ ·) [97, 97]) := by decide

/-! ## Completeness of the search -/

/-- Completeness of `anagrams_recur`: every way to choose, in iteration
order, a subsequence of the dictionary entries from the cursor onwards
whose (sorted, nonempty) keys together exactly exhaust the (sorted)
pool, with a word count within the bounds, is emitted — expanded over
any choice of one spelling per chosen entry (the emitted sequence is the
reversed spelling list, as the engine builds sequences tail-first). -/
theorem anagrams_recur_complete (dict : List Entry) (hnd : NodupKeys dict) :
    ∀ (entries : List Entry) (mx cursor : Nat) (pool : Sig) (mn : Nat) (ws : List Sig),
      pool.Sorted (· ≤ ·) →
      (∀ e ∈ entries, e.1.Sorted (· ≤ ·) ∧ e.1 ≠ []) →
      List.Sublist entries (dict.drop cursor) →
      List.Perm (entries.map Prod.fst).flatten pool →
      mn ≤ entries.length → entries.length ≤ mx →
      List.Forall₂ (fun (e : Entry) w => w ∈ e.2) entries ws →
      ws.reverse ∈ anagrams_recur dict mx cursor pool mn := by
  intro entries
  induction entries with
  | nil =>
    intro mx cursor pool mn ws hsort hek hsub hperm hmn hmx hf
    cases hf
    have hpool : pool = [] := by
      have h1 : List.Perm ([] : List Nat) pool := hperm
      exact (List.Perm.nil_eq h1).symm
    have hmn0 : mn = 0 := by simpa using hmn
    subst hpool hmn0
    cases mx with
    | zero => rw [anagrams_recur]; simp
    | succ mxp => rw [anagrams_recur]; simp
  | cons e rest ihe =>
    obtain ⟨ekey, ewords⟩ := e
    intro mx cursor pool mn ws hsort hek hsub hperm hmn hmx hf
    cases hf with
    | cons hw hf' =>
      rename_i w ws'
      have heks : ekey.Sorted (· ≤ ·) := (hek _ (List.mem_cons_self _ _)).1
      have hekn : ekey ≠ [] := (hek _ (List.mem_cons_self _ _)).2
      have hpoolne : pool ≠ [] := by
        intro hnil
        rw [hnil] at hperm
        have := List.Perm.eq_nil hperm
        simp only [List.map_cons, List.flatten_cons, List.append_eq_nil] at this
        exact hekn this.1
      have hpoollen : ¬ (pool.length = 0 ∧ mn = 0) := by
        intro hc
        exact hpoolne (List.eq_nil_of_length_eq_zero hc.1)
      have hK : List.Perm (ekey ++ (rest.map Prod.fst).flatten) pool := by
        simpa using hperm
      have hlen : rest.length + 1 ≤ mx := by simpa using hmx
      match mx, hlen with
      | 1, _ =>
        -- last allowed word: the whole remaining pool must equal the key
        have hrest : rest = [] := by
          have : rest.length = 0 := by omega
          exact List.eq_nil_of_length_eq_zero this
        subst hrest
        cases hf'
        have hpe : ekey = pool := by
          refine List.eq_of_perm_of_sorted ?_ heks hsort
          simpa using hK
        have hmem : (ekey, ewords) ∈ dict.drop cursor :=
          List.mem_of_cons_sublist hsub
        have hmemd : (ekey, ewords) ∈ dict := List.drop_subset _ _ hmem
        have hgkv : get_key_value dict pool = some (ekey, ewords) := by
          have := get_key_value_of_mem dict hnd (ekey, ewords) hmemd
          rwa [show (ekey, ewords).1 = pool from hpe] at this
        have hmn1 : ¬ mn > 1 := by
          simp only [List.length_cons, List.length_nil] at hmn
          omega
        rw [anagrams_recur, if_neg hmn1, if_neg hpoollen,
          if_neg (by omega : ¬ (1 : Nat) = 0), if_pos rfl, hgkv]
        rcases hds : dict.drop cursor with _ | ⟨⟨nk, nw0⟩, ds⟩
        · rw [hds] at hmem
          exact absurd hmem (by simp)
        · -- the de-duplication guard accepts: the found entry is at or
          -- after the cursor
          have hcur : cursor < dict.length := by
            by_contra hc
            push_neg at hc
            rw [List.drop_eq_nil_of_le hc] at hds
            exact absurd hds (by simp)
          have hd0 : dict[cursor] = (nk, nw0) := by
            have h2 := List.drop_eq_getElem_cons hcur
            rw [hds] at h2
            injection h2 with h3 h4
            exact h3.symm
          have hkpc : key_pos dict nk = cursor := by
            have := key_pos_eq dict hnd cursor hcur
            rwa [hd0] at this
          rw [hds] at hmem
          obtain ⟨i0, hi0, hie⟩ := List.mem_iff_getElem.mp hmem
          have hi0' : cursor + i0 < dict.length := by
            have h7 : i0 < (dict.drop cursor).length := by
              rw [hds]
              exact hi0
            rw [List.length_drop] at h7
            omega
          have h5 : dict[cursor + i0]? = some (ekey, ewords) := by
            rw [← List.getElem?_drop, hds, List.getElem?_eq_getElem hi0, hie]
          have hje : dict[cursor + i0] = (ekey, ewords) := by
            rw [List.getElem?_eq_getElem hi0'] at h5
            exact Option.some_inj.mp h5
          have hkpe : key_pos dict ekey = cursor + i0 := by
            have := key_pos_eq dict hnd (cursor + i0) hi0'
            rwa [hje] at this
          show [w].reverse ∈
            if key_pos dict ekey < key_pos dict nk then []
            else List.map (fun w => [w]) ewords
          rw [if_neg (by rw [hkpe, hkpc]; omega)]
          simp only [List.reverse_cons, List.reverse_nil, List.nil_append,
            List.mem_map]
          exact ⟨w, hw, rfl⟩
      | mxq + 2, hlen2 =>
        -- at least two words still allowed: walk the loop to the entry
        have hmn2 : mn ≤ rest.length + 1 := by simpa using hmn
        have hmnx : ¬ mn > mxq + 2 := by omega
        -- the inner walk along the dictionary suffix
        have walk : ∀ (ds : List Entry) (cursor : Nat), dict.drop cursor = ds →
            List.Sublist ((ekey, ewords) :: rest) ds →
            (w :: ws').reverse ∈ anagrams_recur dict (mxq + 2) cursor pool mn := by
          intro ds
          induction ds with
          | nil =>
            intro cursor _ hsub'
            exact absurd hsub' (by simp)
          | cons d0 ds' ihd =>
            intro cursor hds hsub'
            rw [anagrams_recur, if_neg hmnx, if_neg hpoollen,
              if_neg (by omega : ¬ mxq + 2 = 0), if_neg (by omega : ¬ mxq + 2 = 1),
              hds, anagrams_loop]
            rw [List.mem_append]
            cases hsub' with
            | cons a1 hskip =>
              -- the chosen entry lies strictly after this slot
              refine Or.inr ?_
              have hds' : dict.drop (cursor + 1) = ds' := by
                rw [← List.tail_drop, hds]
                rfl
              have := ihd (cursor + 1) hds' hskip
              rw [anagrams_recur, if_neg hmnx, if_neg hpoollen,
                if_neg (by omega : ¬ mxq + 2 = 0), if_neg (by omega : ¬ mxq + 2 = 1),
                hds'] at this
              exact this
            | cons₂ a1 htake =>
              -- choose this entry here
              refine Or.inl ?_
              have hds' : dict.drop (cursor + 1) = ds' := by
                rw [← List.tail_drop, hds]
                rfl
              have hsubp : (subtract ekey pool).isSome = true := by
                rw [subtract_isSome_iff]
                refine List.sublist_of_subperm_of_sorted ?_ heks hsort
                exact List.Subperm.trans
                  (List.sublist_append_left ekey _).subperm hK.subperm
              obtain ⟨new_pool, hnp⟩ := Option.isSome_iff_exists.mp hsubp
              obtain ⟨hnps, hnpp⟩ := subtract_eq_some _ _ _ hnp
              have hnpsort : new_pool.Sorted (· ≤ ·) := hsort.sublist hnps
              have hnpk : List.Perm (rest.map Prod.fst).flatten new_pool := by
                have h3 : List.Perm (ekey ++ new_pool)
                    (ekey ++ (rest.map Prod.fst).flatten) :=
                  hnpp.trans hK.symm
                exact ((List.perm_append_left_iff ekey).mp h3).symm
              have hrec := ihe (mxq + 1) (cursor + 1) new_pool
                (if mn = 0 then 0 else mn - 1) ws' hnpsort
                (fun x hx => hek x (List.mem_cons_of_mem _ hx))
                (hds' ▸ htake) hnpk
                (by split <;> omega)
                (by omega) hf'
              rw [hnp]
              simp only [List.mem_flatMap, List.mem_map]
              exact ⟨ws'.reverse, hrec, ⟨w, hw, by simp⟩⟩
        rcases hds : dict.drop cursor with _ | ⟨d0, ds'⟩
        · rw [hds] at hsub
          exact absurd hsub (by simp)
        · exact walk (d0 :: ds') cursor hds (hds ▸ hsub)

/-- An element of the left list of a `Forall₂` is relatum of some
element of the right list. -/
theorem forall₂_mem_left {R : Entry → Sig → Prop} :
    ∀ {es : List Entry} {ws : List Sig}, List.Forall₂ R es ws →
      ∀ e ∈ es, ∃ w ∈ ws, R e w := by
  intro es ws hf
  induction hf with
  | nil => simp
  | cons hr hf2 ih =>
    rename_i e w es' ws'
    intro x hx
    rcases List.mem_cons.mp hx with hx | hx
    · exact ⟨w, List.mem_cons_self _ _, hx ▸ hr⟩
    · obtain ⟨w', hw', hr'⟩ := ih x hx
      exact ⟨w', List.mem_cons_of_mem _ hw', hr'⟩

/-- C1 (amended): every way to partition the normalized pool into a set
of *distinct* dictionary signatures — formally a subsequence of the
dictionary in iteration order, each key used at most once and nonempty —
whose keys together exactly exhaust the pool, with a word count within
`[minwords, maxwords]`, is emitted, expanded over every choice of one
original-word spelling per chosen signature.  (The original claim also
promised partitions that repeat a signature; those are never emitted,
see `repeated_signature_not_emitted`, and partitions choosing an
empty signature with `minwords = 0` on an empty pool are likewise
unreachable, hence the nonemptiness condition.) -/
theorem find_anagrams_complete (dict : List Entry) (word : List Nat)
    (mn mx : Nat) (entries : List Entry) (ws : List Sig)
    (hnd : NodupKeys dict) (hinv : DictInv dict)
    (hne : ∀ e ∈ entries, e.1 ≠ [])
    (hsub : List.Sublist entries dict)
    (hperm : List.Perm (entries.map Prod.fst).flatten
      (List.insertionSort (· ≤ ·) word))
    (hmn : mn ≤ entries.length) (hmx : entries.length ≤ mx)
    (hf : List.Forall₂ (fun (e : Entry) w => w ∈ e.2) entries ws) :
    ws.reverse ∈ find_anagrams dict word mn mx := by
  rw [find_anagrams_eq]
  have hsort : (List.insertionSort (· ≤ ·) word).Sorted (· ≤ ·) :=
    List.sorted_insertionSort _ _
  have hek : ∀ e ∈ entries, e.1.Sorted (· ≤ ·) ∧ e.1 ≠ [] := by
    intro e he
    refine ⟨?_, hne e he⟩
    obtain ⟨w, _, hw⟩ := forall₂_mem_left hf e he
    exact make_key_sorted w e.1 (hinv e (hsub.subset he) w hw)
  have hpass : ∀ e ∈ entries,
      (fun e : Entry => (subtract e.1 (List.insertionSort (· ≤ ·) word)).isSome) e
        = true := by
    intro e he
    rw [subtract_isSome_iff]
    refine List.sublist_of_subperm_of_sorted ?_ (hek e he).1 hsort
    have h1 : List.Sublist e.1 (entries.map Prod.fst).flatten :=
      List.sublist_flatten_of_mem (List.mem_map_of_mem Prod.fst he)
    exact h1.subperm.trans hperm.subperm
  have hsubr : List.Sublist entries
      (restrict dict (List.insertionSort (· ≤ ·) word)) := by
    have h1 := hsub.filter
      (fun e : Entry => (subtract e.1 (List.insertionSort (· ≤ ·) word)).isSome)
    rwa [List.filter_eq_self.mpr hpass] at h1
  refine anagrams_recur_complete _ (nodupKeys_filter _ _ hnd) entries mx 0 _ mn ws
    hsort hek ?_ hperm hmn hmx hf
  rw [List.drop_zero]
  exact hsubr

/-- Witness for C1 (amended) at a concrete input: the dictionary
{"a": ["a"], "at": ["at"]} and the query "aat" with
`minwords = maxwords = 2` emit the sequence ["at", "a"]. -/
theorem find_anagrams_complete_witness :
    [[97, 116], [97]] ∈
      find_anagrams [([97], [[97]]), ([97, 116], [[97, 116]])] [97, 97, 116] 2 2 := by
  have hinv : DictInv [([97], [[97]]), ([97, 116], [[97, 116]])] := by
    intro e he w hw
    simp only [List.mem_cons, List.not_mem_nil, or_false] at he
    rcases he with rfl | rfl
    · simp only [List.mem_cons, List.not_mem_nil, or_false] at hw
      subst hw
      exact (make_key_eq_of_ascii [97] (by decide)).trans (by decide)
    · simp only [List.mem_cons, List.not_mem_nil, or_false] at hw
      subst hw
      exact (make_key_eq_of_ascii [97, 116] (by decide)).trans (by decide)
  exact find_anagrams_complete [([97], [[97]]), ([97, 116], [[97, 116]])]
    [97, 97, 116] 2 2 [([97], [[97]]), ([97, 116], [[97, 116]])]
    [[97], [97, 116]] (by unfold NodupKeys; decide) hinv (by decide) (List.Sublist.refl _)
    (by decide) (by decide) (by decide)
    (List.Forall₂.cons (by decide) (List.Forall₂.cons (by decide) List.Forall₂.nil))

/-! ## Termination: an explicit fuel bound -/

/-- Fuel-indexed variant of the dictionary loop: `f` is the (fuelled)
recursive call, `none` propagates fuel exhaustion. -/
def anagrams_loop_fuel (f : Nat → Sig → Nat → Option (List (List Sig))) :
    List Entry → Nat → Sig → Nat → Option (List (List Sig))
  | [], _, _, _ => some []
  | (key, words) :: rest, cursor, pool, mn =>
    match (match subtract key pool with
           | some new_pool =>
             (f (cursor + 1) new_pool (if mn = 0 then 0 else mn - 1)).map
               (fun sets => sets.flatMap (fun set => words.map (fun w => set ++ [w])))
           | none => some []),
          anagrams_loop_fuel f rest (cursor + 1) pool mn with
    | some a, some b => some (a ++ b)
    | _, _ => none

/-- Fuel-indexed variant of `anagrams_recur`: one unit of fuel is spent
per recursive self-call of the source function (the call at
`maxwords - 1`, main.rs:152); the iterator walk inside one call
(main.rs:149) consumes no fuel, matching the source where it is a
`while` loop, not recursion.  `none` means the fuel ran out. -/
def anagrams_recur_fuel (dict : List Entry) :
    Nat → Nat → Nat → Sig → Nat → Option (List (List Sig))
  | 0, _, _, _, _ => none
  | fuel + 1, mx, cursor, pool, mn =>
    if mn > mx then some []
    else if pool.length = 0 ∧ mn = 0 then some [[]]
    else if mx = 0 then some []
    else if mx = 1 then
      some (match get_key_value dict pool with
      | none => []
      | some (key, words) =>
        match dict.drop cursor with
        | [] => []
        | (next_key, _) :: _ =>
          if key_pos dict key < key_pos dict next_key then []
          else words.map (fun w => [w]))
    else
      match mx with
      | mx' + 1 => anagrams_loop_fuel
          (fun c p m => anagrams_recur_fuel dict fuel mx' c p m)
          (dict.drop cursor) cursor pool mn
      | 0 => some []

/-- If the recursive call never runs out of fuel, neither does the
loop, and it computes exactly the unfuelled loop. -/
theorem anagrams_loop_fuel_eq (f : Nat → Sig → Nat → Option (List (List Sig)))
    (g : Nat → Sig → Nat → List (List Sig))
    (hfg : ∀ c p m, f c p m = some (g c p m)) :
    ∀ rest cursor pool mn, anagrams_loop_fuel f rest cursor pool mn
      = some (anagrams_loop g rest cursor pool mn) := by
  intro rest
  induction rest with
  | nil => intro cursor pool mn; rfl
  | cons entry rest ih =>
    intro cursor pool mn
    obtain ⟨key, words⟩ := entry
    rw [anagrams_loop_fuel, anagrams_loop]
    cases hsub : subtract key pool with
    | none => simp [ih]
    | some np => simp [hfg, ih]

/-- C9: `anagrams_recur` terminates — its recursion depth is bounded by
`maxwords`, because every recursive self-call strictly decreases
`maxwords` and within one call the dictionary iterator only advances.
Formally: `maxwords + 1` units of fuel (one per nested self-call) always
suffice, and the fuelled computation returns exactly the real one. -/
theorem anagrams_recur_fuel_sufficient (dict : List Entry) :
    ∀ fuel mx cursor pool mn, mx < fuel →
      anagrams_recur_fuel dict fuel mx cursor pool mn
        = some (anagrams_recur dict mx cursor pool mn) := by
  intro fuel
  induction fuel with
  | zero =>
    intro mx _ _ _ h
    omega
  | succ fuel ih =>
    intro mx cursor pool mn hlt
    cases mx with
    | zero =>
      rw [anagrams_recur_fuel, anagrams_recur]
      split_ifs <;> rfl
    | succ mxp =>
      rw [anagrams_recur_fuel, anagrams_recur]
      split_ifs <;> try rfl
      exact anagrams_loop_fuel_eq _ _ (fun c p m => ih mxp c p m (by omega)) _ _ _ _

/-- Witness for C9 at a concrete input. -/
theorem anagrams_recur_fuel_sufficient_witness :
    anagrams_recur_fuel [([97], [[97]])] 3 2 0 [97, 97] 0
      = some (anagrams_recur [([97], [[97]])] 2 0 [97, 97] 0) :=
  anagrams_recur_fuel_sufficient [([97], [[97]])] 3 2 0 [97, 97] 0 (by decide)

/-! ## Concrete witnesses -/

/-- The two-entry dictionary {"a": ["a"], "at": ["at"]} satisfies the
key invariant. -/
theorem dictInv_a_at : DictInv [([97], [[97]]), ([97, 116], [[97, 116]])] := by
  intro e he w hw
  simp only [List.mem_cons, List.not_mem_nil, or_false] at he
  rcases he with rfl | rfl
  · simp only [List.mem_cons, List.not_mem_nil, or_false] at hw
    subst hw
    exact (make_key_eq_of_ascii [97] (by decide)).trans (by decide)
  · simp only [List.mem_cons, List.not_mem_nil, or_false] at hw
    subst hw
    exact (make_key_eq_of_ascii [97, 116] (by decide)).trans (by decide)

/-- The one-entry dictionary {"aet": ["tea", "eat"]} satisfies the key
invariant. -/
theorem dictInv_tea_eat :
    DictInv [([97, 101, 116], [[116, 101, 97], [101, 97, 116]])] := by
  intro e he w hw
  simp only [List.mem_cons, List.not_mem_nil, or_false] at he
  subst he
  simp only [List.mem_cons, List.not_mem_nil, or_false] at hw
  rcases hw with rfl | rfl
  · exact (make_key_eq_of_ascii [116, 101, 97] (by decide)).trans (by decide)
  · exact (make_key_eq_of_ascii [101, 97, 116] (by decide)).trans (by decide)

theorem word_sig_tea : word_sig [116, 101, 97] = [97, 101, 116] := by
  show (make_key [116, 101, 97]).getD [] = [97, 101, 116]
  rw [make_key_eq_of_ascii [116, 101, 97] (by decide)]
  decide

theorem word_sig_eat : word_sig [101, 97, 116] = [97, 101, 116] := by
  show (make_key [101, 97, 116]).getD [] = [97, 101, 116]
  rw [make_key_eq_of_ascii [101, 97, 116] (by decide)]
  decide

/-- Witness for C3 at concrete sorted inputs. -/
theorem subtract_spec_witness :
    ((subtract [97, 116] [97, 101, 116]).isSome = true
        ↔ (↑[97, 116] : Multiset Nat) ≤ ↑[97, 101, 116])
      ∧ ∀ r, subtract [97, 116] [97, 101, 116] = some r →
          r.Sorted (· ≤ ·) ∧ (↑r : Multiset Nat) = ↑[97, 101, 116] - ↑[97, 116]
          ∧ List.Perm ([97, 116] ++ r) [97, 101, 116]
          ∧ r.length = [97, 101, 116].length - [97, 116].length :=
  subtract_spec [97, 116] [97, 101, 116] (by decide) (by decide)

/-- Witness for C5 on "Tea!" versus "ate". -/
theorem make_key_spec_witness :
    (make_key [84, 101, 97, 33] = make_key [97, 116, 101]
      ↔ spec_letters [84, 101, 97, 33] = spec_letters [97, 116, 101])
    ∧ make_key [84, 101, 97, 33] = some (List.insertionSort (· ≤ ·)
        (([84, 101, 97, 33].filter spec_is_alnum).map spec_fold)) :=
  make_key_spec [84, 101, 97, 33] [97, 116, 101] (by decide) (by decide)

/-- Witness for C4: the emitted sequence ["at", "a"] for the query "aat"
exhausts the pool. -/
theorem find_anagrams_exhausts_pool_witness :
    List.insertionSort (· ≤ ·) (([[97, 116], [97]] : List Sig).flatMap word_sig)
      = List.insertionSort (· ≤ ·) [97, 97, 116] :=
  find_anagrams_exhausts_pool [([97], [[97]]), ([97, 116], [[97, 116]])]
    [97, 97, 116] 2 2 [[97, 116], [97]] dictInv_a_at (by decide)

/-- Witness for C6: word-count and letter-length bounds at a concrete
query. -/
theorem find_anagrams_respects_bounds_witness :
    ((2 ≤ ([[97, 116], [97]] : List Sig).length
        ∧ ([[97, 116], [97]] : List Sig).length ≤ 2)
      ∧ ∀ w ∈ ([[97, 116], [97]] : List Sig),
          1 ≤ (word_sig w).length ∧ (word_sig w).length ≤ 2) :=
  find_anagrams_respects_bounds [([97], [[97]]), ([97, 116], [[97, 116]])] 1 2
    [97, 97, 116] 2 2 [[97, 116], [97]] dictInv_a_at (by decide)

/-- Witness for C2: the spellings "tea" and "eat" of the same signature
are emitted with (trivially) the same signature ordering. -/
theorem find_anagrams_no_permuted_duplicates_witness :
    ([[116, 101, 97]] : List Sig).map word_sig
      = ([[101, 97, 116]] : List Sig).map word_sig :=
  find_anagrams_no_permuted_duplicates
    [([97, 101, 116], [[116, 101, 97], [101, 97, 116]])] [116, 101, 97] 0 1
    [[116, 101, 97]] [[101, 97, 116]]
    (by unfold NodupKeys; decide) dictInv_tea_eat (by decide) (by decide)
    (by
      rw [List.map_cons, List.map_nil, List.map_cons, List.map_nil,
        word_sig_tea, word_sig_eat])

/-- Witness for C7 (amended) at the identity ordering. -/
theorem tea_query_two_words_empty_all_orders_witness :
    find_anagrams tea_dict [97, 101, 116] 2 2 = []
    ∧ subtract [97, 98, 116] [97, 101, 116] = none :=
  tea_query_two_words_empty_all_orders tea_dict (List.Perm.refl _)

end Anagrams
